import Mathlib

/-!
Verification development for the link-scanner engine
(src/src/contents/link-scanner.ts).

The TypeScript content script is shallowly embedded: every module-level
mutable variable becomes a field of an explicit state record, every
`async` function becomes a pure function from its inputs and the current
state to its result and the next state, and every interaction with the
host environment (the background message channel, the browser regex
engine, the URL parser, the unrestrict service, timers and the mutation
observer) is threaded through as an explicit parameter or recorded in an
explicit event list.  JavaScript strings are modelled as Lean `String`s
and string primitives (`startsWith`, `slice`, trailing-punctuation
replacement) are re-expressed over the underlying character list.
-/

namespace LinkScanner

/-- Models JS `String.prototype.startsWith` over the character list. -/
def strStartsWith (s p : String) : Bool :=
  p.data.isPrefixOf s.data

/-- Models JS `String.prototype.endsWith` over the character list. -/
def strEndsWith (s p : String) : Bool :=
  p.data.isSuffixOf s.data

/-- `pattern.slice(1, -1)`: drop the first and the last character. -/
def sliceInner (s : String) : String :=
  ⟨(s.data.drop 1).dropLast⟩

/-- The delimiter stripping in `getHostsRegex`:
`pattern.startsWith("/") && pattern.endsWith("/") ? pattern.slice(1, -1) : pattern`. -/
def stripSlashes (p : String) : String :=
  if strStartsWith p "/" && strEndsWith p "/" then sliceInner p else p

/-- `hostname.replace(/^www\./, "")`: remove one leading `www.` if present. -/
def stripWww (h : String) : String :=
  if strStartsWith h "www." then ⟨h.data.drop 4⟩ else h

/-- Characters of the trailing-punctuation class `[.,;)]`. -/
def isTrailingPunct (c : Char) : Bool :=
  c = '.' || c = ',' || c = ';' || c = ')'

/-- `url.replace(/[.,;)]+$/, "")`: remove the maximal trailing run of
sentence punctuation. -/
def stripTrailingPunct (s : String) : String :=
  ⟨(s.data.reverse.dropWhile isTrailingPunct).reverse⟩

/-- A compiled case-insensitive regex is external to the engine; the engine
only ever calls `.test`, so a compiled pattern is modelled by the predicate
it decides on URLs. -/
def Pattern : Type := String → Bool

/-- The module-level pattern-cache variables `cachedHostsRegex` and
`cachedHostsRegexTimestamp` (`null` becomes `none`, the timestamp is a JS
millisecond number, modelled as `Int`). -/
structure CacheState where
  cachedHostsRegex : Option (List Pattern)
  cachedHostsRegexTimestamp : Int

/-- `CACHE_TTL = 5 * 60 * 1000`. -/
def CACHE_TTL : Int := 5 * 60 * 1000

/-- Outcome of the `GET_HOSTS_REGEX` round trip, as discriminated by the
callback: `failure` covers `chrome.runtime.lastError`, `!response?.success`
and `!response?.data`; `ok data` carries the wire-format pattern strings. -/
inductive FetchResponse where
  | failure
  | ok (data : List String)

/-- `response.data.map(pattern => new RegExp(strip(pattern), "i"))` where
`new RegExp` may throw: compilation of each source string is the external
`compile` oracle, and a single failure aborts the whole map with an
exception, so no list is produced. -/
def compileAll (compile : String → Option Pattern) : List String → Option (List Pattern)
  | [] => some []
  | p :: ps =>
    match compile (stripSlashes p) with
    | some r =>
      match compileAll compile ps with
      | some rs => some (r :: rs)
      | none => none
    | none => none

/-- Result of one `getHostsRegex()` call: the list it resolves with, the
cache state afterwards, and whether a `GET_HOSTS_REGEX` message was sent. -/
structure FetchOutcome where
  patterns : List Pattern
  state : CacheState
  fetched : Bool

/-- The body of the `chrome.runtime.sendMessage` callback in
`getHostsRegex`: on a failed response resolve `[]` leaving the cache
untouched; otherwise compile all patterns, and either install the new cache
entry (stamped with `now`) and resolve it, or — if compilation threw —
resolve `[]` with the cache still untouched. -/
def fetchPath (compile : String → Option Pattern) (now : Int) (st : CacheState)
    (resp : FetchResponse) : FetchOutcome :=
  match resp with
  | .failure => ⟨[], st, true⟩
  | .ok data =>
    match compileAll compile data with
    | some pats => ⟨pats, ⟨some pats, now⟩, true⟩
    | none => ⟨[], st, true⟩

/-- `getHostsRegex()` at time `now`: serve the cache when it exists and
`now - cachedHostsRegexTimestamp < CACHE_TTL`, otherwise go to the remote
fetch path. -/
def getHostsRegex (compile : String → Option Pattern) (now : Int) (st : CacheState)
    (resp : FetchResponse) : FetchOutcome :=
  match st.cachedHostsRegex with
  | some cached =>
    if now - st.cachedHostsRegexTimestamp < CACHE_TTL then ⟨cached, st, false⟩
    else fetchPath compile now st resp
  | none => fetchPath compile now st resp

/-- The cache does not answer at time `now`: either nothing is cached or
the entry is stale. -/
def cacheMiss (st : CacheState) (now : Int) : Prop :=
  st.cachedHostsRegex = none ∨ CACHE_TTL ≤ now - st.cachedHostsRegexTimestamp

/-- `UnrestrictedLink` is produced by the external unrestrict service and
only carried, never inspected; it is modelled by an opaque tag. -/
structure UnrestrictedLink where
  tag : Nat
deriving DecidableEq, Repr

/-- The link classification stored in `DetectedLink.type`. -/
inductive LinkType where
  | hoster
  | magnet
deriving DecidableEq, Repr

/-- The `DetectedLink` record: `unrestrictedLink` is `none` when the field
is absent or `undefined`. -/
structure DetectedLink where
  url : String
  host : String
  type : LinkType
  unrestrictedLink : Option UnrestrictedLink
deriving DecidableEq, Repr

/-- The module-level session caches `processedLinks` (a `Set<string>`,
modelled by a membership list) and `unrestrictedCache`
(a `Map<string, UnrestrictedLink>`, modelled by an association list whose
most recent binding wins). -/
structure Session where
  processedLinks : List String
  unrestrictedCache : List (String × UnrestrictedLink)

/-- `unrestrictedCache.get(url)`. -/
def cacheGet (m : List (String × UnrestrictedLink)) (url : String) :
    Option UnrestrictedLink :=
  match m with
  | [] => none
  | (k, v) :: rest => if k = url then some v else cacheGet rest url

/-- `unrestrictedCache.set(url, u)`. -/
def cacheSet (m : List (String × UnrestrictedLink)) (url : String)
    (u : UnrestrictedLink) : List (String × UnrestrictedLink) :=
  (url, u) :: m

/-- `extractHost`: magnet URIs get the sentinel host `"magnet"`; otherwise
the browser URL parser — the external oracle `hostnameOf`, `none` when
`new URL(url)` throws — supplies the hostname, whose leading `www.` is
stripped; a parse failure degrades to `"unknown"`. -/
def extractHost (hostnameOf : String → Option String) (url : String) : String :=
  if strStartsWith url "magnet:" then "magnet"
  else
    match hostnameOf url with
    | some h => stripWww h
    | none => "unknown"

/-- `matchesHosterPattern`: `patterns.some(pattern => pattern.test(url))`. -/
def matchesHosterPattern (url : String) (patterns : List Pattern) : Bool :=
  patterns.any fun p => p url

/-- The document as the scanner consumes it: the `href` of each `a[href]`
element in document order, and the URL-regex matches that
`extractUrlsFromText` yields over the tree-walked text nodes (script,
style and noscript subtrees already excluded), concatenated in walk
order.  The URL-extraction regex itself is external regex machinery, so
its output is the model's input. -/
structure PageDoc where
  anchors : List String
  textUrls : List String

/-- The per-URL loop body of `scanTextNodes`, over the text-node URL
matches with the pass's own `seenUrls` set: note the source tests raw
`url` against `seenUrls` but inserts the cleaned URL. -/
def scanTextGo (hostnameOf : String → Option String) (patterns : List Pattern)
    (cache : List (String × UnrestrictedLink)) :
    List String → List String → List DetectedLink
  | [], _ => []
  | url :: rest, seen =>
    if url ∈ seen then scanTextGo hostnameOf patterns cache rest seen
    else
      let cleanUrl := stripTrailingPunct url
      if matchesHosterPattern cleanUrl patterns then
        ⟨cleanUrl, extractHost hostnameOf cleanUrl, .hoster, cacheGet cache cleanUrl⟩ ::
          scanTextGo hostnameOf patterns cache rest (cleanUrl :: seen)
      else scanTextGo hostnameOf patterns cache rest seen

/-- `scanTextNodes`: walk the text-node URL matches with a fresh seen-set. -/
def scanTextNodes (hostnameOf : String → Option String) (patterns : List Pattern)
    (cache : List (String × UnrestrictedLink)) (textUrls : List String) :
    List DetectedLink :=
  scanTextGo hostnameOf patterns cache textUrls []

/-- The anchor loop of `scanPageForLinks`: skip empty, `javascript:` and
already-seen hrefs; every surviving href enters `seenUrls` (whether or not
it produces a link); magnet hrefs are classified without consulting the
patterns; remaining hrefs become hoster links when some pattern matches.
Returns the links pushed and the final `seenUrls`. -/
def scanAnchorsGo (hostnameOf : String → Option String) (patterns : List Pattern)
    (cache : List (String × UnrestrictedLink)) :
    List String → List String → List DetectedLink × List String
  | [], seen => ([], seen)
  | href :: rest, seen =>
    if href = "" || strStartsWith href "javascript:" || decide (href ∈ seen) then
      scanAnchorsGo hostnameOf patterns cache rest seen
    else
      let seen' := href :: seen
      if strStartsWith href "magnet:" then
        let r := scanAnchorsGo hostnameOf patterns cache rest seen'
        (⟨href, "magnet", .magnet, none⟩ :: r.1, r.2)
      else if matchesHosterPattern href patterns then
        let r := scanAnchorsGo hostnameOf patterns cache rest seen'
        (⟨href, extractHost hostnameOf href, .hoster, cacheGet cache href⟩ :: r.1, r.2)
      else scanAnchorsGo hostnameOf patterns cache rest seen'

/-- The merge loop at the end of `scanPageForLinks`: a text-pass link is
appended only when its (cleaned) URL is not already in the anchor pass's
`seenUrls`, and is then added to that set. -/
def mergeTextLinks : List DetectedLink → List String → List DetectedLink
  | [], _ => []
  | l :: ls, seen =>
    if l.url ∈ seen then mergeTextLinks ls seen
    else l :: mergeTextLinks ls (l.url :: seen)

/-- The body of `scanPageForLinks` once `getHostsRegex` has resolved to
`patterns`: the anchor pass, then the text pass merged through the anchor
pass's seen-set. -/
def scanPageLinksWith (hostnameOf : String → Option String) (patterns : List Pattern)
    (cache : List (String × UnrestrictedLink)) (doc : PageDoc) : List DetectedLink :=
  let (anchorLinks, seen) := scanAnchorsGo hostnameOf patterns cache doc.anchors []
  anchorLinks ++ mergeTextLinks (scanTextNodes hostnameOf patterns cache doc.textUrls) seen

/-- `scanPageForLinks`: await `getHostsRegex`, then scan; returns the links
and the pattern-cache state the call left behind. -/
def scanPageForLinks (hostnameOf : String → Option String)
    (compile : String → Option Pattern) (now : Int) (cs : CacheState)
    (resp : FetchResponse) (cache : List (String × UnrestrictedLink))
    (doc : PageDoc) : List DetectedLink × CacheState :=
  let f := getHostsRegex compile now cs resp
  (scanPageLinksWith hostnameOf f.patterns cache doc, f.state)

/-- Outcome of one `UNRESTRICT_LINK` round trip for one URL: the awaited
`sendMessage` either throws (`threw`, caught by the `try`), resolves
without `result.success && result.data` (`failed`), or resolves with a
payload (`ok`). -/
inductive UnrestrictCallResult where
  | threw
  | failed
  | ok (u : UnrestrictedLink)

/-- Whether the round trip delivered a payload. -/
def UnrestrictCallResult.isOk : UnrestrictCallResult → Bool
  | .ok _ => true
  | _ => false

/-- Result of one `autoUnrestrictLinks` run: the link list with its
in-place `unrestrictedLink` mutations, the session caches afterwards, the
`hasNewUnrestrictions` flag, and the URLs for which an `UNRESTRICT_LINK`
message was actually sent, in order. -/
structure UnrestrictOutcome where
  links : List DetectedLink
  session : Session
  hasNew : Bool
  calls : List String

/-- The loop of `autoUnrestrictLinks` over the link list (the source
filters to hoster links first and mutates the shared link objects; walking
the full list and skipping non-hoster entries is the same traversal).  An
eligible link is marked in `processedLinks` before its call is issued;
`ok` stores the payload in `unrestrictedCache`, mutates the link and sets
`hasNewUnrestrictions`; `failed` and `threw` leave the link untouched. -/
def autoUnrestrictGo (oracle : String → UnrestrictCallResult) :
    List DetectedLink → Session → Bool → UnrestrictOutcome
  | [], s, hasNew => ⟨[], s, hasNew, []⟩
  | l :: ls, s, hasNew =>
    if l.type = .hoster then
      if l.url ∈ s.processedLinks then
        let o := autoUnrestrictGo oracle ls s hasNew
        ⟨l :: o.links, o.session, o.hasNew, o.calls⟩
      else
        let s1 : Session := ⟨l.url :: s.processedLinks, s.unrestrictedCache⟩
        match oracle l.url with
        | .ok u =>
          let s2 : Session := ⟨s1.processedLinks, cacheSet s1.unrestrictedCache l.url u⟩
          let o := autoUnrestrictGo oracle ls s2 true
          ⟨{ l with unrestrictedLink := some u } :: o.links, o.session, o.hasNew,
            l.url :: o.calls⟩
        | .failed =>
          let o := autoUnrestrictGo oracle ls s1 hasNew
          ⟨l :: o.links, o.session, o.hasNew, l.url :: o.calls⟩
        | .threw =>
          let o := autoUnrestrictGo oracle ls s1 hasNew
          ⟨l :: o.links, o.session, o.hasNew, l.url :: o.calls⟩
    else
      let o := autoUnrestrictGo oracle ls s hasNew
      ⟨l :: o.links, o.session, o.hasNew, o.calls⟩

/-- `autoUnrestrictLinks`: the loop started with
`hasNewUnrestrictions = false`. -/
def autoUnrestrictLinks (oracle : String → UnrestrictCallResult)
    (links : List DetectedLink) (s : Session) : UnrestrictOutcome :=
  autoUnrestrictGo oracle links s false

/-- The `REPORT_DETECTED_LINKS` messages the tail of `autoUnrestrictLinks`
sends: the (mutated) link list, exactly when `hasNewUnrestrictions`. -/
def autoUnrestrictReports (oracle : String → UnrestrictCallResult)
    (links : List DetectedLink) (s : Session) : List (List DetectedLink) :=
  let o := autoUnrestrictLinks oracle links s
  if o.hasNew then [o.links] else []

/-- A session-long sequence of `autoUnrestrictLinks` runs (one per scan
cycle): threads the session caches through and concatenates the
`UNRESTRICT_LINK` call traces. -/
def processBatches (oracle : String → UnrestrictCallResult) :
    List (List DetectedLink) → Session → Session × List String
  | [], s => (s, [])
  | b :: bs, s =>
    let o := autoUnrestrictLinks oracle b s
    let r := processBatches oracle bs o.session
    (r.1, o.calls ++ r.2)

/-- The resolved preference record (`getPreferences` defaults both fields
to `true` when absent). -/
structure Preferences where
  autoScanEnabled : Bool
  autoUnrestrict : Bool

/-- Result of one `performAutoScan` invocation: every
`REPORT_DETECTED_LINKS` payload it sent, in order, plus the pattern-cache
and session state afterwards. -/
structure AutoScanOutcome where
  reports : List (List DetectedLink)
  cache : CacheState
  session : Session

/-- `performAutoScan`: a no-op while `isScanning` holds the guard;
otherwise read preferences and exit early when auto-scan is disabled; scan
the page; when links were found report them, and when the auto-unrestrict
preference is on run `autoUnrestrictLinks`, whose tail reports the
enriched list again iff it gained new unrestrictions. -/
def performAutoScan (hostnameOf : String → Option String)
    (compile : String → Option Pattern) (oracle : String → UnrestrictCallResult)
    (now : Int) (isScanning : Bool) (prefs : Preferences) (cs : CacheState)
    (resp : FetchResponse) (sess : Session) (doc : PageDoc) : AutoScanOutcome :=
  if isScanning then ⟨[], cs, sess⟩
  else if !prefs.autoScanEnabled then ⟨[], cs, sess⟩
  else
    let scanned := scanPageForLinks hostnameOf compile now cs resp sess.unrestrictedCache doc
    let links := scanned.1
    if links.isEmpty then ⟨[], scanned.2, sess⟩
    else if prefs.autoUnrestrict then
      let o := autoUnrestrictLinks oracle links sess
      ⟨links :: autoUnrestrictReports oracle links sess, scanned.2, o.session⟩
    else ⟨[links], scanned.2, sess⟩

/-- `SCAN_DEBOUNCE_MS = 1000`. -/
def SCAN_DEBOUNCE_MS : Nat := 1000

/-- `triggerScan` at time `t`: `clearTimeout` on any pending timer, then
arm a fresh one due at `t + SCAN_DEBOUNCE_MS`.  The timer state is the
module variable `scanTimeout`, modelled as the due time of the pending
timer, if any. -/
def triggerScan (t : Nat) (pending : Option Nat) : Option Nat :=
  match pending with
  | some _ => some (t + SCAN_DEBOUNCE_MS)
  | none => some (t + SCAN_DEBOUNCE_MS)

/-- The event-loop schedule around `triggerScan`: consume the mutation
notifications in time order; before handling a notification at time `t`,
a pending timer whose due time has passed (`d ≤ t`) fires and runs its
scan; after the last notification, silence lets any pending timer fire.
Returns the times at which `performAutoScan` runs. -/
def runTriggers : List Nat → Option Nat → List Nat
  | [], none => []
  | [], some d => [d]
  | t :: ts, none => runTriggers ts (triggerScan t none)
  | t :: ts, some d =>
    if d ≤ t then d :: runTriggers ts (triggerScan t none)
    else runTriggers ts (triggerScan t (some d))

/-- The scheduler lifecycle state `initAutoScan` manipulates: the
`observer` module variable (holding the identity of the installed
`MutationObserver`, `none` when `null`), the pending debounce timer, and
two ghost counters instrumenting the external observer resource — how many
observers were ever constructed and how many are currently connected. -/
structure SchedulerState where
  observer : Option Nat
  scanTimeout : Option Nat
  observersAlive : Nat
  observersCreated : Nat
deriving DecidableEq, Repr

/-- The scheduler state when the content script loads. -/
def initialSchedulerState : SchedulerState :=
  ⟨none, none, 0, 0⟩

/-- The lifecycle effect of `initAutoScan` (its `performAutoScan()` kick is
orthogonal to the observer/timer state and tracked by the scan model
above).  Enabled: install a `MutationObserver` only when `observer` is
`null`.  Disabled: disconnect and null the observer if present, and
`clearTimeout` and null any pending debounce timer. -/
def initAutoScan (autoScanEnabled : Bool) (st : SchedulerState) : SchedulerState :=
  if autoScanEnabled then
    match st.observer with
    | some _ => st
    | none =>
      ⟨some st.observersCreated, st.scanTimeout, st.observersAlive + 1,
        st.observersCreated + 1⟩
  else
    match st.observer with
    | some _ => ⟨none, none, st.observersAlive - 1, st.observersCreated⟩
    | none => ⟨none, none, st.observersAlive, st.observersCreated⟩

/-- A run of preference changes, each re-invoking `initAutoScan`. -/
def runInitSequence (prefSeq : List Bool) (st : SchedulerState) : SchedulerState :=
  prefSeq.foldl (fun s b => initAutoScan b s) st

/-! ### Pattern-cache lemmas -/

theorem fetchPath_fetched (compile : String → Option Pattern) (now : Int)
    (st : CacheState) (resp : FetchResponse) :
    (fetchPath compile now st resp).fetched = true := by
  cases resp with
  | failure => rfl
  | ok data =>
    simp only [fetchPath]
    cases compileAll compile data <;> rfl

theorem getHostsRegex_of_miss (compile : String → Option Pattern) (now : Int)
    (st : CacheState) (resp : FetchResponse) (hmiss : cacheMiss st now) :
    getHostsRegex compile now st resp = fetchPath compile now st resp := by
  obtain ⟨cr, ts⟩ := st
  cases cr with
  | none => rfl
  | some cached =>
    rcases hmiss with h | h
    · exact absurd h (by simp)
    · simp only [getHostsRegex]
      rw [if_neg (not_lt.mpr h)]

theorem compileAll_eq_none_of_mem (compile : String → Option Pattern)
    (data : List String) (p : String) (hp : p ∈ data)
    (hc : compile (stripSlashes p) = none) :
    compileAll compile data = none := by
  induction data with
  | nil => cases hp
  | cons q qs ih =>
    unfold compileAll
    rcases List.mem_cons.mp hp with rfl | hmem
    · rw [hc]
    · cases hq : compile (stripSlashes q) with
      | none => rfl
      | some r => rw [ih hmem]

/-! ### Claim theorems: pattern cache -/

/-- C2: `getHostsRegex` never fails — with no usable cache, a failed
response (remote error or missing data) resolves to the empty list, and a
single wire pattern whose (delimiter-stripped) source does not compile
makes the whole batch resolve to the empty list rather than throwing. -/
theorem C2_getHostsRegex_fail_open (compile : String → Option Pattern)
    (now : Int) (st : CacheState) (hmiss : cacheMiss st now) :
    (getHostsRegex compile now st .failure).patterns = [] ∧
    ∀ data p, p ∈ data → compile (stripSlashes p) = none →
      (getHostsRegex compile now st (.ok data)).patterns = [] := by
  constructor
  · rw [getHostsRegex_of_miss compile now st _ hmiss]
    rfl
  · intro data p hp hc
    rw [getHostsRegex_of_miss compile now st _ hmiss]
    simp only [fetchPath]
    rw [compileAll_eq_none_of_mem compile data p hp hc]

theorem C2_getHostsRegex_fail_open_witness :
    (getHostsRegex (fun _ => none) 0 ⟨none, 0⟩ .failure).patterns = [] ∧
    (getHostsRegex (fun _ => none) 0 ⟨none, 0⟩ (.ok ["bad["])).patterns = [] := by
  have h := C2_getHostsRegex_fail_open (fun _ => none) 0 ⟨none, 0⟩ (Or.inl rfl)
  exact ⟨h.1, h.2 ["bad["] "bad[" (by simp) rfl⟩

/-- C3: after a pattern fetch recorded at time `T`, a call at
`T + TTL - 1` serves the cached list without a remote fetch, and a call at
`T + TTL + 1` issues a new remote fetch. -/
theorem C3_cache_ttl_expiry (compile : String → Option Pattern)
    (pats : List Pattern) (T : Int) (resp : FetchResponse) :
    getHostsRegex compile (T + CACHE_TTL - 1) ⟨some pats, T⟩ resp =
      ⟨pats, ⟨some pats, T⟩, false⟩ ∧
    (getHostsRegex compile (T + CACHE_TTL + 1) ⟨some pats, T⟩ resp).fetched = true := by
  have hlt : T + CACHE_TTL - 1 - T < CACHE_TTL := by unfold CACHE_TTL; omega
  have hge : CACHE_TTL ≤ T + CACHE_TTL + 1 - T := by unfold CACHE_TTL; omega
  constructor
  · simp only [getHostsRegex]
    rw [if_pos hlt]
  · rw [getHostsRegex_of_miss compile _ _ resp (Or.inr hge)]
    exact fetchPath_fetched ..

/-- C10: with no usable cache, a failed refresh — failed response or a
batch whose compilation throws — resolves to the empty list and leaves
both cache variables untouched (the empty list is not cached), and any
later call still goes to the remote fetch path instead of serving the
failure for the TTL. -/
theorem C10_failed_refresh_leaves_cache (compile : String → Option Pattern)
    (now : Int) (st : CacheState) (resp : FetchResponse)
    (hmiss : cacheMiss st now)
    (hfail : resp = .failure ∨ ∃ data, resp = .ok data ∧ compileAll compile data = none) :
    getHostsRegex compile now st resp = ⟨[], st, true⟩ ∧
    ∀ now' resp', now ≤ now' →
      (getHostsRegex compile now' st resp').fetched = true := by
  constructor
  · rw [getHostsRegex_of_miss compile now st resp hmiss]
    rcases hfail with rfl | ⟨data, rfl, hdata⟩
    · rfl
    · simp only [fetchPath]
      rw [hdata]
  · intro now' resp' hle
    have hmiss' : cacheMiss st now' := by
      rcases hmiss with h | h
      · exact Or.inl h
      · exact Or.inr (by omega)
    rw [getHostsRegex_of_miss compile now' st resp' hmiss']
    exact fetchPath_fetched ..

theorem C10_failed_refresh_leaves_cache_witness :
    getHostsRegex (fun _ => none) 7 ⟨none, 0⟩ (.ok ["x"]) = ⟨[], ⟨none, 0⟩, true⟩ ∧
    (getHostsRegex (fun _ => none) 9 ⟨none, 0⟩ .failure).fetched = true := by
  have h := C10_failed_refresh_leaves_cache (fun _ => none) 7 ⟨none, 0⟩ (.ok ["x"])
    (Or.inl rfl) (Or.inr ⟨["x"], rfl, rfl⟩)
  exact ⟨h.1, h.2 9 .failure (by omega)⟩

/-! ### Scan-pass lemmas -/

theorem strStartsWith_ne_empty {s : String} (h : strStartsWith s "magnet:" = true) :
    ¬ s = "" := by
  intro he
  subst he
  exact absurd h (by decide)

theorem strStartsWith_magnet_not_js {s : String}
    (h : strStartsWith s "magnet:" = true) :
    strStartsWith s "javascript:" = false := by
  by_contra hjs
  rw [Bool.not_eq_false] at hjs
  rw [strStartsWith, List.isPrefixOf_iff_prefix] at h hjs
  rcases List.prefix_or_prefix_of_prefix h hjs with hp | hp
  · exact absurd hp (by decide)
  · exact absurd hp (by decide)

theorem scanAnchorsGo_seen_subset (hostnameOf : String → Option String)
    (patterns : List Pattern) (cache : List (String × UnrestrictedLink))
    (anchors : List String) (seen : List String) :
    ∀ u ∈ seen, u ∈ (scanAnchorsGo hostnameOf patterns cache anchors seen).2 := by
  induction anchors generalizing seen with
  | nil => intro u hu; exact hu
  | cons href rest ih =>
    intro u hu
    simp only [scanAnchorsGo]
    split
    · exact ih seen u hu
    · split
      · exact ih (href :: seen) u (List.mem_cons_of_mem _ hu)
      · split
        · exact ih (href :: seen) u (List.mem_cons_of_mem _ hu)
        · exact ih (href :: seen) u (List.mem_cons_of_mem _ hu)

theorem scanAnchorsGo_links_spec (hostnameOf : String → Option String)
    (patterns : List Pattern) (cache : List (String × UnrestrictedLink))
    (anchors : List String) (seen : List String) :
    ((scanAnchorsGo hostnameOf patterns cache anchors seen).1.map DetectedLink.url).Nodup ∧
    ∀ l ∈ (scanAnchorsGo hostnameOf patterns cache anchors seen).1,
      l.url ∈ (scanAnchorsGo hostnameOf patterns cache anchors seen).2 ∧ l.url ∉ seen := by
  induction anchors generalizing seen with
  | nil => exact ⟨List.nodup_nil, by intro l hl; cases hl⟩
  | cons href rest ih =>
    simp only [scanAnchorsGo]
    split
    · exact ih seen
    · rename_i hguard
      have hnotseen : href ∉ seen := by
        intro hmem
        exact hguard (by simp [hmem])
      split
      · refine ⟨?_, ?_⟩
        · simp only [List.map_cons, List.nodup_cons]
          refine ⟨?_, (ih (href :: seen)).1⟩
          intro hmem
          rcases List.mem_map.mp hmem with ⟨l, hl, hurl⟩
          exact ((ih (href :: seen)).2 l hl).2 (hurl ▸ List.mem_cons_self _ _)
        · intro l hl
          rcases List.mem_cons.mp hl with rfl | hl
          · exact ⟨scanAnchorsGo_seen_subset hostnameOf patterns cache rest
              (href :: seen) href (List.mem_cons_self _ _), hnotseen⟩
          · have h := (ih (href :: seen)).2 l hl
            exact ⟨h.1, fun hmem => h.2 (List.mem_cons_of_mem _ hmem)⟩
      · split
        · refine ⟨?_, ?_⟩
          · simp only [List.map_cons, List.nodup_cons]
            refine ⟨?_, (ih (href :: seen)).1⟩
            intro hmem
            rcases List.mem_map.mp hmem with ⟨l, hl, hurl⟩
            exact ((ih (href :: seen)).2 l hl).2 (hurl ▸ List.mem_cons_self _ _)
          · intro l hl
            rcases List.mem_cons.mp hl with rfl | hl
            · exact ⟨scanAnchorsGo_seen_subset hostnameOf patterns cache rest
                (href :: seen) href (List.mem_cons_self _ _), hnotseen⟩
            · have h := (ih (href :: seen)).2 l hl
              exact ⟨h.1, fun hmem => h.2 (List.mem_cons_of_mem _ hmem)⟩
        · refine ⟨(ih (href :: seen)).1, ?_⟩
          intro l hl
          have h := (ih (href :: seen)).2 l hl
          exact ⟨h.1, fun hmem => h.2 (List.mem_cons_of_mem _ hmem)⟩

theorem mergeTextLinks_spec (ls : List DetectedLink) (seen : List String) :
    ((mergeTextLinks ls seen).map DetectedLink.url).Nodup ∧
    ∀ l ∈ mergeTextLinks ls seen, l.url ∉ seen := by
  induction ls generalizing seen with
  | nil => exact ⟨List.nodup_nil, by intro l hl; cases hl⟩
  | cons l ls ih =>
    simp only [mergeTextLinks]
    split
    · rename_i hmem
      refine ⟨(ih seen).1, ?_⟩
      exact fun l' hl' => (ih seen).2 l' hl'
    · rename_i hmem
      refine ⟨?_, ?_⟩
      · simp only [List.map_cons, List.nodup_cons]
        refine ⟨?_, (ih (l.url :: seen)).1⟩
        intro hin
        rcases List.mem_map.mp hin with ⟨l', hl', hurl⟩
        exact (ih (l.url :: seen)).2 l' hl' (hurl ▸ List.mem_cons_self _ _)
      · intro l' hl'
        rcases List.mem_cons.mp hl' with rfl | hl'
        · exact hmem
        · exact fun hin =>
            (ih (l.url :: seen)).2 l' hl' (List.mem_cons_of_mem _ hin)

theorem scanAnchorsGo_mem_url (hostnameOf : String → Option String)
    (patterns : List Pattern) (cache : List (String × UnrestrictedLink))
    (anchors : List String) (seen : List String) (href : String)
    (hmem : href ∈ anchors) (hseen : href ∉ seen) (hne : ¬ href = "")
    (hjs : strStartsWith href "javascript:" = false)
    (hclass : strStartsWith href "magnet:" = true ∨
      matchesHosterPattern href patterns = true) :
    href ∈ (scanAnchorsGo hostnameOf patterns cache anchors seen).1.map DetectedLink.url := by
  induction anchors generalizing seen with
  | nil => cases hmem
  | cons a rest ih =>
    by_cases ha : a = href
    · subst ha
      simp only [scanAnchorsGo]
      rw [if_neg (by simp [hne, hjs, hseen])]
      rcases hclass with hm | hh
      · rw [if_pos hm]
        exact List.mem_cons_self _ _
      · by_cases hmagnet : strStartsWith a "magnet:" = true
        · rw [if_pos hmagnet]
          exact List.mem_cons_self _ _
        · rw [if_neg hmagnet, if_pos hh]
          exact List.mem_cons_self _ _
    · have hrest : href ∈ rest := by
        rcases List.mem_cons.mp hmem with h | h
        · exact absurd h.symm ha
        · exact h
      have hseen' : href ∉ a :: seen := by
        intro h
        rcases List.mem_cons.mp h with h | h
        · exact ha h.symm
        · exact hseen h
      simp only [scanAnchorsGo]
      split
      · exact ih seen hrest hseen
      · split
        · exact List.mem_cons_of_mem _ (ih (a :: seen) hrest hseen')
        · split
          · exact List.mem_cons_of_mem _ (ih (a :: seen) hrest hseen')
          · exact ih (a :: seen) hrest hseen'

theorem scanAnchorsGo_mem_magnet (hostnameOf : String → Option String)
    (patterns : List Pattern) (cache : List (String × UnrestrictedLink))
    (anchors : List String) (seen : List String) (href : String)
    (hmem : href ∈ anchors) (hseen : href ∉ seen)
    (hmagnet : strStartsWith href "magnet:" = true) :
    (⟨href, "magnet", .magnet, none⟩ : DetectedLink) ∈
      (scanAnchorsGo hostnameOf patterns cache anchors seen).1 := by
  induction anchors generalizing seen with
  | nil => cases hmem
  | cons a rest ih =>
    by_cases ha : a = href
    · subst ha
      simp only [scanAnchorsGo]
      rw [if_neg (by simp [strStartsWith_ne_empty hmagnet,
        strStartsWith_magnet_not_js hmagnet, hseen])]
      rw [if_pos hmagnet]
      exact List.mem_cons_self _ _
    · have hrest : href ∈ rest := by
        rcases List.mem_cons.mp hmem with h | h
        · exact absurd h.symm ha
        · exact h
      have hseen' : href ∉ a :: seen := by
        intro h
        rcases List.mem_cons.mp h with h | h
        · exact ha h.symm
        · exact hseen h
      simp only [scanAnchorsGo]
      split
      · exact ih seen hrest hseen
      · split
        · exact List.mem_cons_of_mem _ (ih (a :: seen) hrest hseen')
        · split
          · exact List.mem_cons_of_mem _ (ih (a :: seen) hrest hseen')
          · exact ih (a :: seen) hrest hseen'

theorem scanPageLinksWith_nodup (hostnameOf : String → Option String)
    (patterns : List Pattern) (cache : List (String × UnrestrictedLink))
    (doc : PageDoc) :
    ((scanPageLinksWith hostnameOf patterns cache doc).map DetectedLink.url).Nodup := by
  unfold scanPageLinksWith
  simp only [List.map_append]
  rw [List.nodup_append]
  have ha := scanAnchorsGo_links_spec hostnameOf patterns cache doc.anchors []
  have hm := mergeTextLinks_spec
    (scanTextNodes hostnameOf patterns cache doc.textUrls)
    (scanAnchorsGo hostnameOf patterns cache doc.anchors []).2
  refine ⟨ha.1, hm.1, ?_⟩
  intro u hu hv
  rcases List.mem_map.mp hu with ⟨l, hl, hurl⟩
  rcases List.mem_map.mp hv with ⟨l', hl', hurl'⟩
  exact hm.2 l' hl' (by rw [hurl']; rw [← hurl]; exact (ha.2 l hl).1)

/-! ### Claim theorems: scanning -/

/-- C1: a full scan yields at most one `DetectedLink` per URL (the `url`
fields of the result are pairwise distinct), and a reportable anchor URL —
non-empty, not script-protocol, magnet or pattern-matching — yields
exactly one `DetectedLink`, whatever the free-text matches contain; in
particular a URL appearing both as an anchor and twice in text is reported
exactly once. -/
theorem C1_scan_dedup (hostnameOf : String → Option String)
    (patterns : List Pattern) (cache : List (String × UnrestrictedLink))
    (doc : PageDoc) :
    ((scanPageLinksWith hostnameOf patterns cache doc).map DetectedLink.url).Nodup ∧
    ∀ u ∈ doc.anchors, ¬ u = "" → strStartsWith u "javascript:" = false →
      (strStartsWith u "magnet:" = true ∨ matchesHosterPattern u patterns = true) →
      ((scanPageLinksWith hostnameOf patterns cache doc).map DetectedLink.url).count u
        = 1 := by
  refine ⟨scanPageLinksWith_nodup hostnameOf patterns cache doc, ?_⟩
  intro u hu hne hjs hclass
  refine List.count_eq_one_of_mem (scanPageLinksWith_nodup hostnameOf patterns cache doc) ?_
  unfold scanPageLinksWith
  simp only [List.map_append]
  exact List.mem_append_left _
    (scanAnchorsGo_mem_url hostnameOf patterns cache doc.anchors [] u hu
      (by simp) hne hjs hclass)

theorem C1_scan_dedup_witness :
    ((scanPageLinksWith (fun _ => some "h") [fun s => strStartsWith s "https://h/"] []
      ⟨["https://h/a"], ["https://h/a", "https://h/a"]⟩).map DetectedLink.url).count
        "https://h/a" = 1 := by
  have h := C1_scan_dedup (fun _ => some "h") [fun s => strStartsWith s "https://h/"] []
    ⟨["https://h/a"], ["https://h/a", "https://h/a"]⟩
  exact h.2 "https://h/a" (by simp) (by decide) (by decide) (Or.inr (by decide))

/-- C7: every anchor URL beginning with the magnet scheme is classified
`type = magnet`, `host = "magnet"`, for every pattern set — the magnet
branch precedes the hoster-pattern test. -/
theorem C7_magnet_classification (hostnameOf : String → Option String)
    (patterns : List Pattern) (cache : List (String × UnrestrictedLink))
    (doc : PageDoc) (href : String) (hmem : href ∈ doc.anchors)
    (hmagnet : strStartsWith href "magnet:" = true) :
    (⟨href, "magnet", .magnet, none⟩ : DetectedLink) ∈
      scanPageLinksWith hostnameOf patterns cache doc := by
  unfold scanPageLinksWith
  exact List.mem_append_left _
    (scanAnchorsGo_mem_magnet hostnameOf patterns cache doc.anchors [] href hmem
      (by simp) hmagnet)

theorem C7_magnet_classification_witness :
    (⟨"magnet:?xt=abc", "magnet", .magnet, none⟩ : DetectedLink) ∈
      scanPageLinksWith (fun _ => some "x") [fun _ => true, fun _ => false] []
        ⟨["magnet:?xt=abc"], []⟩ :=
  C7_magnet_classification (fun _ => some "x") [fun _ => true, fun _ => false] []
    ⟨["magnet:?xt=abc"], []⟩ "magnet:?xt=abc" (by simp) (by decide)

/-! ### Orchestrator lemmas -/

theorem auGo_processed_mono (oracle : String → UnrestrictCallResult)
    (ls : List DetectedLink) (s : Session) (b : Bool) (u : String)
    (hu : u ∈ s.processedLinks) :
    u ∈ (autoUnrestrictGo oracle ls s b).session.processedLinks := by
  induction ls generalizing s b with
  | nil => exact hu
  | cons l ls ih =>
    simp only [autoUnrestrictGo]
    split
    · split
      · exact ih s b hu
      · split
        · exact ih _ true (List.mem_cons_of_mem _ hu)
        · exact ih _ b (List.mem_cons_of_mem _ hu)
        · exact ih _ b (List.mem_cons_of_mem _ hu)
    · exact ih s b hu

theorem auGo_calls_spec (oracle : String → UnrestrictCallResult)
    (ls : List DetectedLink) (s : Session) (b : Bool) :
    (autoUnrestrictGo oracle ls s b).calls.Nodup ∧
    ∀ u ∈ (autoUnrestrictGo oracle ls s b).calls,
      u ∉ s.processedLinks ∧
      u ∈ (autoUnrestrictGo oracle ls s b).session.processedLinks := by
  induction ls generalizing s b with
  | nil => exact ⟨List.nodup_nil, by intro u hu; cases hu⟩
  | cons l ls ih =>
    simp only [autoUnrestrictGo]
    split
    · split
      · exact ih s b
      · rename_i hpl
        split
        all_goals
          rename_i heq
          refine ⟨?_, ?_⟩
          · rw [List.nodup_cons]
            refine ⟨fun hmem => ?_, (ih _ _).1⟩
            exact ((ih _ _).2 l.url hmem).1 (List.mem_cons_self _ _)
          · intro u hu
            rcases List.mem_cons.mp hu with rfl | hu
            · exact ⟨hpl, auGo_processed_mono oracle ls _ _ l.url (List.mem_cons_self _ _)⟩
            · refine ⟨fun hmem => ((ih _ _).2 u hu).1 (List.mem_cons_of_mem _ hmem),
                ((ih _ _).2 u hu).2⟩
    · exact ih s b

theorem auGo_calls_congr (o1 o2 : String → UnrestrictCallResult)
    (ls : List DetectedLink) (s1 s2 : Session) (b1 b2 : Bool)
    (h : s1.processedLinks = s2.processedLinks) :
    (autoUnrestrictGo o1 ls s1 b1).calls = (autoUnrestrictGo o2 ls s2 b2).calls := by
  induction ls generalizing s1 s2 b1 b2 with
  | nil => rfl
  | cons l ls ih =>
    simp only [autoUnrestrictGo]
    by_cases ht : l.type = .hoster
    · rw [if_pos ht, if_pos ht]
      by_cases hp : l.url ∈ s1.processedLinks
      · rw [if_pos hp, if_pos (h ▸ hp)]
        exact ih s1 s2 b1 b2 h
      · rw [if_neg hp, if_neg (h ▸ hp)]
        cases ho1 : o1 l.url <;> cases ho2 : o2 l.url <;>
          exact congrArg (l.url :: ·) (ih _ _ _ _ (by simp [h]))
    · rw [if_neg ht, if_neg ht]
      exact ih s1 s2 b1 b2 h

theorem auGo_hasNew (oracle : String → UnrestrictCallResult)
    (ls : List DetectedLink) (s : Session) (b : Bool) :
    (autoUnrestrictGo oracle ls s b).hasNew =
      (b || (autoUnrestrictGo oracle ls s b).calls.any fun u => (oracle u).isOk) := by
  induction ls generalizing s b with
  | nil => simp [autoUnrestrictGo]
  | cons l ls ih =>
    simp only [autoUnrestrictGo]
    split
    · split
      · exact ih s b
      · split
        · rename_i heq
          rw [ih _ true]
          simp [List.any_cons, heq, UnrestrictCallResult.isOk]
        · rename_i heq
          rw [ih _ b]
          simp [List.any_cons, heq, UnrestrictCallResult.isOk]
        · rename_i heq
          rw [ih _ b]
          simp [List.any_cons, heq, UnrestrictCallResult.isOk]
    · exact ih s b

theorem auGo_mem_links_of_not_ok (oracle : String → UnrestrictCallResult)
    (ls : List DetectedLink) (s : Session) (b : Bool) (l : DetectedLink)
    (hl : l ∈ ls) (hfail : (oracle l.url).isOk = false) :
    l ∈ (autoUnrestrictGo oracle ls s b).links := by
  induction ls generalizing s b with
  | nil => cases hl
  | cons a ls ih =>
    rcases List.mem_cons.mp hl with rfl | hmem
    · simp only [autoUnrestrictGo]
      split
      · split
        · exact List.mem_cons_self _ _
        · split
          · rename_i heq
            rw [heq] at hfail
            exact absurd hfail (by simp [UnrestrictCallResult.isOk])
          · exact List.mem_cons_self _ _
          · exact List.mem_cons_self _ _
      · exact List.mem_cons_self _ _
    · simp only [autoUnrestrictGo]
      split
      · split
        · exact List.mem_cons_of_mem _ (ih s b hmem)
        · split
          · exact List.mem_cons_of_mem _ (ih _ true hmem)
          · exact List.mem_cons_of_mem _ (ih _ b hmem)
          · exact List.mem_cons_of_mem _ (ih _ b hmem)
      · exact List.mem_cons_of_mem _ (ih s b hmem)

theorem processBatches_processed_mono (oracle : String → UnrestrictCallResult)
    (batches : List (List DetectedLink)) (s : Session) (u : String)
    (hu : u ∈ s.processedLinks) :
    u ∈ (processBatches oracle batches s).1.processedLinks := by
  induction batches generalizing s with
  | nil => exact hu
  | cons b bs ih =>
    exact ih _ (auGo_processed_mono oracle b s false u hu)

theorem processBatches_count_zero (oracle : String → UnrestrictCallResult)
    (batches : List (List DetectedLink)) (s : Session) (u : String)
    (hu : u ∈ s.processedLinks) :
    (processBatches oracle batches s).2.count u = 0 := by
  induction batches generalizing s with
  | nil => rfl
  | cons b bs ih =>
    simp only [processBatches, autoUnrestrictLinks, List.count_append]
    have h1 : (autoUnrestrictGo oracle b s false).calls.count u = 0 :=
      List.count_eq_zero.mpr fun hmem =>
        ((auGo_calls_spec oracle b s false).2 u hmem).1 hu
    rw [h1, ih _ (auGo_processed_mono oracle b s false u hu)]

theorem processBatches_calls_processed (oracle : String → UnrestrictCallResult)
    (batches : List (List DetectedLink)) (s : Session) (u : String)
    (hu : u ∈ (processBatches oracle batches s).2) :
    u ∈ (processBatches oracle batches s).1.processedLinks := by
  induction batches generalizing s with
  | nil => cases hu
  | cons b bs ih =>
    simp only [processBatches] at hu ⊢
    rcases List.mem_append.mp hu with h | h
    · exact processBatches_processed_mono oracle bs _ u
        ((auGo_calls_spec oracle b s false).2 u h).2
    · exact ih _ h

/-! ### Claim theorems: auto-unrestrict orchestrator -/

/-- C4: across any sequence of `autoUnrestrictLinks` runs in one session,
`UNRESTRICT_LINK` is sent at most once per URL; a URL already in
`processedLinks` gets zero further calls; and every URL that was called
ends up in `processedLinks` (it is marked before the call, whatever the
call's outcome). -/
theorem C4_session_unrestrict_once (oracle : String → UnrestrictCallResult)
    (batches : List (List DetectedLink)) (s : Session) (u : String) :
    (processBatches oracle batches s).2.count u ≤ 1 ∧
    (u ∈ s.processedLinks → (processBatches oracle batches s).2.count u = 0) ∧
    (u ∈ (processBatches oracle batches s).2 →
      u ∈ (processBatches oracle batches s).1.processedLinks) := by
  refine ⟨?_, fun hu => processBatches_count_zero oracle batches s u hu,
    fun hu => processBatches_calls_processed oracle batches s u hu⟩
  induction batches generalizing s with
  | nil => simp [processBatches]
  | cons b bs ih =>
    simp only [processBatches, autoUnrestrictLinks, List.count_append]
    by_cases hus : u ∈ s.processedLinks
    · have h1 : (autoUnrestrictGo oracle b s false).calls.count u = 0 :=
        List.count_eq_zero.mpr fun hmem =>
          ((auGo_calls_spec oracle b s false).2 u hmem).1 hus
      rw [h1, processBatches_count_zero oracle bs _ u
        (auGo_processed_mono oracle b s false u hus)]
      omega
    · by_cases huc : u ∈ (autoUnrestrictGo oracle b s false).calls
      · have h1 : (autoUnrestrictGo oracle b s false).calls.count u ≤ 1 :=
          List.nodup_iff_count_le_one.mp (auGo_calls_spec oracle b s false).1 u
        have h2 := processBatches_count_zero oracle bs _ u
          ((auGo_calls_spec oracle b s false).2 u huc).2
        omega
      · have h1 : (autoUnrestrictGo oracle b s false).calls.count u = 0 :=
          List.count_eq_zero.mpr huc
        have h2 := ih (autoUnrestrictGo oracle b s false).session
        omega

theorem C4_session_unrestrict_once_witness :
    (processBatches (fun _ => .threw)
      [[⟨"u", "h", .hoster, none⟩], [⟨"u", "h", .hoster, none⟩]]
      ⟨["u"], []⟩).2.count "u" = 0 :=
  (C4_session_unrestrict_once (fun _ => .threw)
    [[⟨"u", "h", .hoster, none⟩], [⟨"u", "h", .hoster, none⟩]]
    ⟨["u"], []⟩ "u").2.1 (by simp)

/-- C5: the trace of `UNRESTRICT_LINK` calls one `autoUnrestrictLinks` run
issues is the same under any two outcome oracles — so one link's failed or
throwing call never suppresses the calls for the later links — and a link
whose call did not deliver a payload is carried through unchanged, without
an unrestricted result. -/
theorem C5_per_link_failure_isolated (o1 o2 : String → UnrestrictCallResult)
    (links : List DetectedLink) (s : Session) :
    (autoUnrestrictLinks o1 links s).calls = (autoUnrestrictLinks o2 links s).calls ∧
    ∀ l ∈ links, (o1 l.url).isOk = false →
      l ∈ (autoUnrestrictLinks o1 links s).links :=
  ⟨auGo_calls_congr o1 o2 links s s false false rfl,
    fun l hl hfail => auGo_mem_links_of_not_ok o1 links s false l hl hfail⟩

theorem C5_per_link_failure_isolated_witness :
    (autoUnrestrictLinks (fun _ => .threw)
      [⟨"u", "h", .hoster, none⟩, ⟨"v", "h", .hoster, none⟩] ⟨[], []⟩).calls =
      (autoUnrestrictLinks (fun _ => .ok ⟨0⟩)
        [⟨"u", "h", .hoster, none⟩, ⟨"v", "h", .hoster, none⟩] ⟨[], []⟩).calls ∧
    (⟨"v", "h", .hoster, none⟩ : DetectedLink) ∈
      (autoUnrestrictLinks (fun _ => .threw)
        [⟨"u", "h", .hoster, none⟩, ⟨"v", "h", .hoster, none⟩] ⟨[], []⟩).links := by
  have h := C5_per_link_failure_isolated (fun _ => .threw) (fun _ => .ok ⟨0⟩)
    [⟨"u", "h", .hoster, none⟩, ⟨"v", "h", .hoster, none⟩] ⟨[], []⟩
  exact ⟨h.1, h.2 _ (by simp) rfl⟩

/-- C8: in an auto-scan cycle with auto-unrestrict enabled and a non-empty
scan result, exactly two `REPORT_DETECTED_LINKS` messages go out — the
scanned list and then the enriched list — iff at least one
`UNRESTRICT_LINK` call of the pass delivered a payload; the first report
of the scanned list is always there. -/
theorem C8_second_report_iff (hostnameOf : String → Option String)
    (compile : String → Option Pattern) (oracle : String → UnrestrictCallResult)
    (now : Int) (prefs : Preferences) (cs : CacheState) (resp : FetchResponse)
    (sess : Session) (doc : PageDoc)
    (hen : prefs.autoScanEnabled = true) (hau : prefs.autoUnrestrict = true)
    (hne : (scanPageForLinks hostnameOf compile now cs resp sess.unrestrictedCache doc).1
      ≠ []) :
    ((performAutoScan hostnameOf compile oracle now false prefs cs resp sess doc).reports.length
        = 2 ↔
      ∃ u ∈ (autoUnrestrictLinks oracle
          (scanPageForLinks hostnameOf compile now cs resp sess.unrestrictedCache doc).1
          sess).calls, (oracle u).isOk = true) ∧
    (performAutoScan hostnameOf compile oracle now false prefs cs resp sess doc).reports.head?
      = some (scanPageForLinks hostnameOf compile now cs resp sess.unrestrictedCache doc).1 := by
  simp only [performAutoScan, hen, hau]
  revert hne
  generalize scanPageForLinks hostnameOf compile now cs resp sess.unrestrictedCache doc = p
  obtain ⟨links, cs2⟩ := p
  intro hne
  obtain ⟨a, t, rfl⟩ := List.exists_cons_of_ne_nil hne
  simp only [List.isEmpty_cons, Bool.not_true, Bool.false_eq_true, if_false,
    Bool.true_eq_false, if_true]
  have hnew := auGo_hasNew oracle (a :: t) sess false
  rw [Bool.false_or] at hnew
  simp only [autoUnrestrictReports, autoUnrestrictLinks] at hnew ⊢
  constructor
  · cases hany : (autoUnrestrictGo oracle (a :: t) sess false).calls.any
        fun u => (oracle u).isOk with
    | true =>
      rw [hnew, hany]
      simp only [if_true, List.length_cons, List.length_singleton]
      exact ⟨fun _ => List.any_eq_true.mp hany, fun _ => rfl⟩
    | false =>
      rw [hnew, hany]
      simp only [if_false, List.length_cons, List.length_nil]
      constructor
      · intro h
        exact absurd h (by simp)
      · intro ⟨u, hu, hok⟩
        exact absurd (List.any_eq_true.mpr ⟨u, hu, hok⟩) (by rw [hany]; simp)
  · rfl

theorem C8_second_report_iff_witness :
    (performAutoScan (fun _ => none) (fun _ => none) (fun _ => .threw) 0 false
      ⟨true, true⟩ ⟨none, 0⟩ .failure ⟨[], []⟩ ⟨["magnet:x"], []⟩).reports.head?
      = some [⟨"magnet:x", "magnet", .magnet, none⟩] := by
  have h := C8_second_report_iff (fun _ => none) (fun _ => none) (fun _ => .threw) 0
    ⟨true, true⟩ ⟨none, 0⟩ .failure ⟨[], []⟩ ⟨["magnet:x"], []⟩ rfl rfl (by decide)
  rw [h.2]
  decide

/-! ### Scheduler lemmas -/

theorem runTriggers_pending (ts : List Nat) (t : Nat)
    (hchain : List.Chain' (fun a b => a ≤ b ∧ b < a + SCAN_DEBOUNCE_MS) (t :: ts)) :
    runTriggers ts (some (t + SCAN_DEBOUNCE_MS)) =
      [(t :: ts).getLast (List.cons_ne_nil t ts) + SCAN_DEBOUNCE_MS] := by
  induction ts generalizing t with
  | nil => rfl
  | cons t2 ts ih =>
    have hrel := (List.chain'_cons.mp hchain).1
    have htail := (List.chain'_cons.mp hchain).2
    simp only [runTriggers]
    rw [if_neg (by omega)]
    simp only [triggerScan]
    rw [ih t2 htail]
    rw [List.getLast_cons (List.cons_ne_nil t2 ts)]

/-- The ghost invariant tying the `observer` variable to the number of
connected observers. -/
def schedInvariant (st : SchedulerState) : Prop :=
  (st.observer = none → st.observersAlive = 0) ∧
  (∀ i, st.observer = some i → st.observersAlive = 1)

theorem initAutoScan_true_none (st : SchedulerState) (hob : st.observer = none) :
    initAutoScan true st =
      ⟨some st.observersCreated, st.scanTimeout, st.observersAlive + 1,
        st.observersCreated + 1⟩ := by
  simp [initAutoScan, hob]

theorem initAutoScan_true_some (st : SchedulerState) (i : Nat)
    (hob : st.observer = some i) : initAutoScan true st = st := by
  simp [initAutoScan, hob]

theorem initAutoScan_false_none (st : SchedulerState) (hob : st.observer = none) :
    initAutoScan false st = ⟨none, none, st.observersAlive, st.observersCreated⟩ := by
  simp [initAutoScan, hob]

theorem initAutoScan_false_some (st : SchedulerState) (i : Nat)
    (hob : st.observer = some i) :
    initAutoScan false st = ⟨none, none, st.observersAlive - 1, st.observersCreated⟩ := by
  simp [initAutoScan, hob]

theorem initAutoScan_invariant (b : Bool) (st : SchedulerState)
    (h : schedInvariant st) : schedInvariant (initAutoScan b st) := by
  cases b with
  | true =>
    cases hob : st.observer with
    | none =>
      rw [initAutoScan_true_none st hob]
      exact ⟨fun hc => (by cases hc), fun i h2 => by rw [h.1 hob]⟩
    | some i =>
      rw [initAutoScan_true_some st i hob]
      exact h
  | false =>
    cases hob : st.observer with
    | none =>
      rw [initAutoScan_false_none st hob]
      exact ⟨fun _ => h.1 hob, fun j hc => (by cases hc)⟩
    | some i =>
      rw [initAutoScan_false_some st i hob]
      exact ⟨fun _ => by rw [h.2 i hob], fun j hc => (by cases hc)⟩

theorem runInitSequence_invariant (prefSeq : List Bool) (st : SchedulerState)
    (h : schedInvariant st) : schedInvariant (runInitSequence prefSeq st) := by
  induction prefSeq generalizing st with
  | nil => exact h
  | cons b bs ih => exact ih _ (initAutoScan_invariant b st h)

/-! ### Claim theorems: scheduler -/

/-- C6: any burst of `N ≥ 1` mutation notifications, each arriving inside
the previous notification's debounce window, followed by silence, produces
exactly one scan, at the last notification's time plus the debounce
interval — each `triggerScan` resets the pending timer instead of
queueing another scan. -/
theorem C6_debounce_coalescing (ts : List Nat) (h : ts ≠ [])
    (hchain : List.Chain' (fun a b => a ≤ b ∧ b < a + SCAN_DEBOUNCE_MS) ts) :
    runTriggers ts none = [ts.getLast h + SCAN_DEBOUNCE_MS] := by
  obtain ⟨t, rest, rfl⟩ := List.exists_cons_of_ne_nil h
  simp only [runTriggers, triggerScan]
  exact runTriggers_pending rest t hchain

theorem C6_debounce_coalescing_witness :
    runTriggers [0, 400, 800] none = [1800] := by
  have h := C6_debounce_coalescing [0, 400, 800] (by decide)
    (by norm_num [List.chain'_cons, SCAN_DEBOUNCE_MS])
  rw [h]
  rfl

/-- C9: at most one mutation observer is ever alive over any run of
`initAutoScan` calls from the initial state; a call with auto-scan enabled
while an observer exists changes nothing (the observer is reused); a call
with auto-scan disabled leaves both `observer` and `scanTimeout` null. -/
theorem C9_observer_lifecycle (prefSeq : List Bool) (st : SchedulerState) (i : Nat) :
    (runInitSequence prefSeq initialSchedulerState).observersAlive ≤ 1 ∧
    (st.observer = some i → initAutoScan true st = st) ∧
    (initAutoScan false st).observer = none ∧
    (initAutoScan false st).scanTimeout = none := by
  refine ⟨?_, ?_, ?_, ?_⟩
  · have h := runInitSequence_invariant prefSeq initialSchedulerState
      ⟨fun _ => rfl, fun j hc => (by cases hc)⟩
    cases hob : (runInitSequence prefSeq initialSchedulerState).observer with
    | none => rw [h.1 hob]; exact Nat.zero_le 1
    | some j => rw [h.2 j hob]
  · intro hob
    exact initAutoScan_true_some st i hob
  · cases hob : st.observer with
    | none => rw [initAutoScan_false_none st hob]
    | some j => rw [initAutoScan_false_some st j hob]
  · cases hob : st.observer with
    | none => rw [initAutoScan_false_none st hob]
    | some j => rw [initAutoScan_false_some st j hob]

theorem C9_observer_lifecycle_witness :
    (runInitSequence [true, true, false] initialSchedulerState).observersAlive ≤ 1 ∧
    initAutoScan true ⟨some 0, none, 1, 1⟩ = ⟨some 0, none, 1, 1⟩ := by
  have h := C9_observer_lifecycle [true, true, false] ⟨some 0, none, 1, 1⟩ 0
  exact ⟨h.1, h.2.1 rfl⟩

end LinkScanner
